import Mathlib

/-!
The RISC-V reference kernel (`src/core/example.c`).

A shallow embedding of the C function `main` of `example.c` and the proofs of
its specified properties.

The function has only local state: three scalars `a`, `b`, `c`, a four-slot
buffer `mem`, an accumulator `sum` and a loop index `i`.  The embedding passes
that state explicitly (`Regs`) through one Lean function per statement of the
source, in source order.

Machine integers are `Int` with an explicit arithmetic mode:

* `Mode.exact`       unbounded integers, nothing is reduced;
* `Mode.wrapping w`  every result is reduced to the signed `w`-bit range
                     (two's complement wraparound);
* `Mode.trapping w`  a result outside the signed `w`-bit range is a fault, and
                     so is a read of a slot that has not been written.

Division by zero and an index outside `0..3` are faults in every mode.  The
loop is run with fuel (one unit per evaluation of the loop condition), since a
wrapping index need not terminate in general.
-/

namespace Example

/-! ## Machine arithmetic -/

/-- The ways a run can fail. -/
inductive Fault where
  | divByZero
  | outOfBounds
  | overflow
  | uninitRead
  | outOfFuel
  deriving DecidableEq

/-- Arithmetic mode of a run. -/
inductive Mode where
  | exact
  | wrapping (w : Nat)
  | trapping (w : Nat)
  deriving DecidableEq

/-- Reduction of an integer to the signed `w`-bit range. -/
def wrap (w : Nat) (x : Int) : Int :=
  (x + 2 ^ (w - 1)) % 2 ^ w - 2 ^ (w - 1)

/-- Membership in the signed `w`-bit range `[-2^(w-1), 2^(w-1) - 1]`. -/
def inRange (w : Nat) (x : Int) : Prop :=
  -(2 ^ (w - 1)) ≤ x ∧ x ≤ 2 ^ (w - 1) - 1

instance instDecidableInRange (w : Nat) (x : Int) : Decidable (inRange w x) := by
  unfold inRange; infer_instance

/-- Delivery of an arithmetic result in the given mode. -/
def Mode.fit : Mode → Int → Except Fault Int
  | .exact, x => .ok x
  | .wrapping w, x => .ok (wrap w x)
  | .trapping w, x => if inRange w x then .ok x else .error .overflow

/-- An integer literal of the source, as a machine value. -/
def lit (m : Mode) (v : Int) : Except Fault Int := m.fit v

/-- The C operator `+` on `int`. -/
def add (m : Mode) (x y : Int) : Except Fault Int := m.fit (x + y)

/-- The C operator `-` on `int`. -/
def sub (m : Mode) (x y : Int) : Except Fault Int := m.fit (x - y)

/-- The C operator `*` on `int`. -/
def mul (m : Mode) (x y : Int) : Except Fault Int := m.fit (x * y)

/-- The C operator `/` on `int`: the quotient is rounded toward zero
(`Int.tdiv`), and a zero divisor is a fault. -/
def div (m : Mode) (x y : Int) : Except Fault Int :=
  if y = 0 then .error .divByZero else m.fit (Int.tdiv x y)

/-! ## The buffer `int mem[4]` -/

/-- One slot of the buffer: its contents, and whether the run has stored to it.
A declared but unwritten slot holds an indeterminate value. -/
structure Cell where
  val : Int
  written : Bool
  deriving DecidableEq

/-- The buffer `int mem[4]`: exactly four slots. -/
structure Mem where
  s0 : Cell
  s1 : Cell
  s2 : Cell
  s3 : Cell
  deriving DecidableEq

/-- A freshly declared buffer holding the given indeterminate contents. -/
def Mem.fresh (v0 v1 v2 v3 : Int) : Mem :=
  ⟨⟨v0, false⟩, ⟨v1, false⟩, ⟨v2, false⟩, ⟨v3, false⟩⟩

/-- The contents of the four slots, in index order. -/
def Mem.vals (mem : Mem) : List Int :=
  [mem.s0.val, mem.s1.val, mem.s2.val, mem.s3.val]

/-- The slot at an index, if the index is one of `0..3`. -/
def Mem.slot (mem : Mem) (k : Int) : Option Cell :=
  if k = 0 then some mem.s0
  else if k = 1 then some mem.s1
  else if k = 2 then some mem.s2
  else if k = 3 then some mem.s3
  else none

/-- The load `mem[k]`. -/
def Mem.load (m : Mode) (mem : Mem) (k : Int) : Except Fault Int :=
  match mem.slot k with
  | none => .error .outOfBounds
  | some cell =>
    match m with
    | .trapping _ => if cell.written then .ok cell.val else .error .uninitRead
    | _ => .ok cell.val

/-- The store `mem[k] = v`. -/
def Mem.store (mem : Mem) (k : Int) (v : Int) : Except Fault Mem :=
  if k = 0 then .ok ⟨⟨v, true⟩, mem.s1, mem.s2, mem.s3⟩
  else if k = 1 then .ok ⟨mem.s0, ⟨v, true⟩, mem.s2, mem.s3⟩
  else if k = 2 then .ok ⟨mem.s0, mem.s1, ⟨v, true⟩, mem.s3⟩
  else if k = 3 then .ok ⟨mem.s0, mem.s1, mem.s2, ⟨v, true⟩⟩
  else .error .outOfBounds

/-! ## The local state and the statements of `main` -/

/-- The local variables of `main`.  `sum` and `i` are declared late in the
source; until their declarations run, their fields hold the placeholder 0,
which no statement reads. -/
structure Regs where
  a : Int
  b : Int
  c : Int
  mem : Mem
  sum : Int
  i : Int
  deriving DecidableEq

/-- Lines 2-4 and 13: `int a = 5; int b = 10; int c = 0;` and the declaration
`int mem[4];` (hoisted: it has no initialiser, so the buffer starts with the
indeterminate contents `mem0`). -/
def declare (m : Mode) (mem0 : Mem) : Except Fault Regs := do
  let a ← lit m 5
  let b ← lit m 10
  let c ← lit m 0
  pure ⟨a, b, c, mem0, 0, 0⟩

/-- Line 7: `c = a + b;` -/
def stepAdd (m : Mode) (r : Regs) : Except Fault Regs := do
  let v ← add m r.a r.b
  pure ⟨r.a, r.b, v, r.mem, r.sum, r.i⟩

/-- Line 8: `c = c - 3;` -/
def stepSub (m : Mode) (r : Regs) : Except Fault Regs := do
  let k ← lit m 3
  let v ← sub m r.c k
  pure ⟨r.a, r.b, v, r.mem, r.sum, r.i⟩

/-- Line 9: `c = c * 2;` -/
def stepMul (m : Mode) (r : Regs) : Except Fault Regs := do
  let k ← lit m 2
  let v ← mul m r.c k
  pure ⟨r.a, r.b, v, r.mem, r.sum, r.i⟩

/-- Line 10: `c = c / 3;` -/
def stepDiv (m : Mode) (r : Regs) : Except Fault Regs := do
  let k ← lit m 3
  let v ← div m r.c k
  pure ⟨r.a, r.b, v, r.mem, r.sum, r.i⟩

/-- Lines 7-10: the arithmetic block. -/
def aluBlock (m : Mode) (r : Regs) : Except Fault Regs :=
  stepAdd m r >>= stepSub m >>= stepMul m >>= stepDiv m

/-- Lines 14-16: `mem[0] = c; mem[1] = a; mem[2] = b;` -/
def storeBlock (r : Regs) : Except Fault Regs := do
  let m1 ← r.mem.store 0 r.c
  let m2 ← m1.store 1 r.a
  let m3 ← m2.store 2 r.b
  pure ⟨r.a, r.b, r.c, m3, r.sum, r.i⟩

/-- Line 17: `mem[3] = mem[0] + mem[1] + mem[2];` -/
def loadCombine (m : Mode) (r : Regs) : Except Fault Regs := do
  let x0 ← r.mem.load m 0
  let x1 ← r.mem.load m 1
  let t ← add m x0 x1
  let x2 ← r.mem.load m 2
  let v ← add m t x2
  let mem ← r.mem.store 3 v
  pure ⟨r.a, r.b, r.c, mem, r.sum, r.i⟩

/-- The condition of the branch on line 26, `sum > 50`, and its two arms
(lines 27 and 29) as a function of `sum`. -/
def branchValue (m : Mode) (sum : Int) : Except Fault Int := do
  let k ← lit m 50
  if sum > k then sub m sum k else add m sum k

/-- Lines 21-23 from the loop condition on: `i <= bound; i++` around the body
`sum += i;`.  Each evaluation of the condition uses one unit of fuel. -/
def loopFrom (m : Mode) (bound : Int) : Nat → Regs → Except Fault Regs
  | 0, _ => .error .outOfFuel
  | fuel + 1, r => do
    let k ← lit m bound
    if r.i ≤ k then
      let s ← add m r.sum r.i
      let one ← lit m 1
      let j ← add m r.i one
      loopFrom m bound fuel ⟨r.a, r.b, r.c, r.mem, s, j⟩
    else
      pure r

/-- Lines 20-23: `int sum = 0; for (int i = 1; i <= 10; i++) sum += i;` -/
def accumulate (m : Mode) (fuel : Nat) (r : Regs) : Except Fault Regs := do
  let s ← lit m 0
  let i ← lit m 1
  loopFrom m 10 fuel ⟨r.a, r.b, r.c, r.mem, s, i⟩

/-- Lines 26-29: `if (sum > 50) c = sum - 50; else c = sum + 50;` -/
def branchStep (m : Mode) (r : Regs) : Except Fault Regs := do
  let v ← branchValue m r.sum
  pure ⟨r.a, r.b, v, r.mem, r.sum, r.i⟩

/-- The body of `main` up to the `return`, as the final local state. -/
def run (m : Mode) (fuel : Nat) (mem0 : Mem) : Except Fault Regs :=
  declare m mem0 >>= aluBlock m >>= storeBlock >>= loadCombine m
    >>= accumulate m fuel >>= branchStep m

/-- The value returned on line 31, `return c;`, in the given mode. -/
def mainIn (m : Mode) (fuel : Nat) (mem0 : Mem) : Except Fault Int :=
  (run m fuel mem0).map Regs.c

/-- The function `main` of `example.c` with 32-bit wrapping `int`. -/
def main (fuel : Nat) (mem0 : Mem) : Except Fault Int :=
  mainIn (.wrapping 32) fuel mem0

/-- The variant of `main` in which line 17 (the load-and-combine) runs before
lines 14-16 (the stores); every other statement is as in `run`. -/
def runReordered (m : Mode) (fuel : Nat) (mem0 : Mem) : Except Fault Regs :=
  declare m mem0 >>= aluBlock m >>= loadCombine m >>= storeBlock
    >>= accumulate m fuel >>= branchStep m

/-- The value the reordered variant returns, with 32-bit wrapping `int`. -/
def mainReordered (fuel : Nat) (mem0 : Mem) : Except Fault Int :=
  (runReordered (.wrapping 32) fuel mem0).map Regs.c

/-- A mode is at least `k` bits wide: exact arithmetic always is. -/
def Mode.atLeast (k : Nat) : Mode → Prop
  | .exact => True
  | .wrapping w => k ≤ w
  | .trapping w => k ≤ w

/-- A value is representable in a mode: in the signed range of its width. -/
def Mode.represents : Mode → Int → Prop
  | .exact, _ => True
  | .wrapping w, x => inRange w x
  | .trapping w, x => inRange w x

/-- The local state at the `return` of the reference run. -/
def finalRegs : Regs :=
  ⟨5, 10, 5, ⟨⟨8, true⟩, ⟨5, true⟩, ⟨10, true⟩, ⟨23, true⟩⟩, 55, 11⟩

/-! ## Generalisations and instrumentation -/

/-- Lines 2-4 and 13 with the initialisers of `a` and `b` left open:
`int a = a0; int b = b0; int c = 0; int mem[4];`.  At `a0 = 5`, `b0 = 10` this
is `declare`. -/
def declareWith (m : Mode) (a0 b0 : Int) (mem0 : Mem) : Except Fault Regs := do
  let a ← lit m a0
  let b ← lit m b0
  let c ← lit m 0
  pure ⟨a, b, c, mem0, 0, 0⟩

/-- The body of `main` with the initialisers of `a` and `b` left open; every
statement after the declarations is the one of `run`. -/
def runWith (m : Mode) (a0 b0 : Int) (fuel : Nat) (mem0 : Mem) : Except Fault Regs :=
  declareWith m a0 b0 mem0 >>= aluBlock m >>= storeBlock >>= loadCombine m
    >>= accumulate m fuel >>= branchStep m

/-- The value returned by `main` with the initialisers of `a` and `b` left
open, with 32-bit wrapping `int`. -/
def mainWith (a0 b0 : Int) (fuel : Nat) (mem0 : Mem) : Except Fault Int :=
  (runWith (.wrapping 32) a0 b0 fuel mem0).map Regs.c

/-- The loop `loopFrom` with a record of its iterations: each execution of
the body `sum += i;` contributes the pair of the index `i` it ran with and the
value of `sum` it produced, in order of execution.  The statements and their
order are those of `loopFrom`. -/
def loopTrace (m : Mode) (bound : Int) :
    Nat → Regs → Except Fault (List (Int × Int) × Regs)
  | 0, _ => .error .outOfFuel
  | fuel + 1, r => do
    let k ← lit m bound
    if r.i ≤ k then
      let s ← add m r.sum r.i
      let one ← lit m 1
      let j ← add m r.i one
      let rest ← loopTrace m bound fuel ⟨r.a, r.b, r.c, r.mem, s, j⟩
      pure ((r.i, s) :: rest.1, rest.2)
    else
      pure ([], r)

theorem two_pow_pred_ge {w : Nat} (hw : 8 ≤ w) : (128 : Int) ≤ 2 ^ (w - 1) := by
  have h : (2 : Int) ^ 7 ≤ 2 ^ (w - 1) :=
    pow_le_pow_right₀ (by norm_num) (by omega)
  norm_num at h
  exact h

theorem wrap_32_wraps : wrap 32 2147483648 = -2147483648 ∧ wrap 32 (-2147483649) = 2147483647 := by
  decide

theorem two_pow_split {w : Nat} (hw : 1 ≤ w) : (2 : Int) ^ w = 2 * 2 ^ (w - 1) := by
  obtain ⟨k, rfl⟩ : ∃ k, w = k + 1 := ⟨w - 1, by omega⟩
  simp [pow_succ, mul_comm]

theorem wrap_of_inRange {w : Nat} (hw : 1 ≤ w) {x : Int} (hx : inRange w x) :
    wrap w x = x := by
  unfold wrap
  unfold inRange at hx
  have hs := two_pow_split hw
  have hp : (0 : Int) < 2 ^ (w - 1) := by positivity
  rw [Int.emod_eq_of_lt (by omega) (by omega)]
  omega

theorem inRange_of_small {w : Nat} (hw : 8 ≤ w) {x : Int}
    (hlo : -128 ≤ x) (hhi : x ≤ 127) : inRange w x := by
  have h := two_pow_pred_ge hw
  unfold inRange
  omega

theorem wrap_small {w : Nat} (hw : 8 ≤ w) {x : Int}
    (hlo : -128 ≤ x) (hhi : x ≤ 127) : wrap w x = x :=
  wrap_of_inRange (by omega) (inRange_of_small hw hlo hhi)

theorem fit_of_represents {m : Mode} (hm : m.atLeast 1) {x : Int}
    (hx : m.represents x) : m.fit x = .ok x := by
  cases m with
  | exact => rfl
  | wrapping w =>
    simp only [Mode.fit]
    rw [wrap_of_inRange hm hx]
  | trapping w =>
    simp only [Mode.fit]
    exact if_pos hx

theorem atLeast_mono {m : Mode} {j k : Nat} (hjk : j ≤ k) (hm : m.atLeast k) :
    m.atLeast j := by
  cases m <;> simp only [Mode.atLeast] at hm ⊢ <;> omega

theorem represents_small {m : Mode} (hm : m.atLeast 8) {x : Int}
    (hlo : -128 ≤ x) (hhi : x ≤ 127) : m.represents x := by
  cases m with
  | exact => trivial
  | wrapping w => exact inRange_of_small hm hlo hhi
  | trapping w => exact inRange_of_small hm hlo hhi

theorem fit_small {m : Mode} (hm : m.atLeast 8) {x : Int}
    (hlo : -128 ≤ x) (hhi : x ≤ 127) : m.fit x = .ok x :=
  fit_of_represents (atLeast_mono (by omega) hm) (represents_small hm hlo hhi)

theorem load_written (m : Mode) (mem : Mem) (k v : Int)
    (h : mem.slot k = some ⟨v, true⟩) : mem.load m k = .ok v := by
  unfold Mem.load
  rw [h]
  cases m <;> rfl

theorem tdiv_24_3 : Int.tdiv 24 3 = 8 := by decide

theorem run_eq {m : Mode} (hm : m.atLeast 8) {fuel : Nat} (hf : 11 ≤ fuel)
    (mem0 : Mem) : run m fuel mem0 = .ok finalRegs := by
  obtain ⟨k, rfl⟩ : ∃ k, fuel = k + 11 := ⟨fuel - 11, by omega⟩
  simp [run, declare, aluBlock, stepAdd, stepSub, stepMul, stepDiv, storeBlock,
    loadCombine, accumulate, loopFrom, branchStep, branchValue, lit, add, sub, mul, div,
    Mem.store, Mem.slot, load_written, tdiv_24_3, fit_small hm, bind, Except.bind, pure,
    Except.pure, finalRegs]

theorem atLeast_wrapping32 : (Mode.wrapping 32).atLeast 8 := by
  simp [Mode.atLeast]

theorem atLeast_trapping32 : (Mode.trapping 32).atLeast 8 := by
  simp [Mode.atLeast]

theorem main_eq {fuel : Nat} (hf : 11 ≤ fuel) (mem0 : Mem) : main fuel mem0 = .ok 5 := by
  simp [main, mainIn, run_eq atLeast_wrapping32 hf, Except.map, finalRegs]

theorem declare_aluBlock_eq {m : Mode} (hm : m.atLeast 8) (mem0 : Mem) :
    (declare m mem0 >>= aluBlock m) = .ok ⟨5, 10, 8, mem0, 0, 0⟩ := by
  simp [declare, aluBlock, stepAdd, stepSub, stepMul, stepDiv, lit, add, sub, mul, div,
    tdiv_24_3, fit_small hm, bind, Except.bind, pure, Except.pure]

theorem main_out_of_fuel : main 10 (Mem.fresh 0 0 0 0) = .error .outOfFuel := by
  rfl

/-! ## The reference value -/

/-- C1: run on its fixed literals with 32-bit signed arithmetic and enough fuel
for the eleven evaluations of the loop condition, `main` returns exactly 5,
whatever the buffer held at its declaration; this holds with silent wraparound
and equally when overflow is a fault. -/
theorem main_returns_five (fuel : Nat) (hf : 11 ≤ fuel) (mem0 : Mem) :
    main fuel mem0 = .ok 5 ∧ mainIn (.trapping 32) fuel mem0 = .ok 5 := by
  simp [main, mainIn, run_eq atLeast_wrapping32 hf, run_eq atLeast_trapping32 hf,
    Except.map, finalRegs]

theorem main_returns_five_witness :
    11 ≤ 11 ∧ main 11 (Mem.fresh 0 0 0 0) = .ok 5
      ∧ mainIn (.trapping 32) 11 (Mem.fresh 0 0 0 0) = .ok 5 :=
  ⟨le_refl 11, main_returns_five 11 (le_refl 11) (Mem.fresh 0 0 0 0)⟩

/-! ## Reordering the memory steps -/

theorem runReordered_eq {fuel : Nat} (hf : 11 ≤ fuel) (mem0 : Mem) :
    runReordered (.wrapping 32) fuel mem0
      = .ok ⟨5, 10, 5,
          ⟨⟨8, true⟩, ⟨5, true⟩, ⟨10, true⟩,
            ⟨wrap 32 (wrap 32 (mem0.s0.val + mem0.s1.val) + mem0.s2.val), true⟩⟩,
          55, 11⟩ := by
  obtain ⟨k, rfl⟩ : ∃ k, fuel = k + 11 := ⟨fuel - 11, by omega⟩
  have hm := atLeast_wrapping32
  simp [runReordered, declare, aluBlock, stepAdd, stepSub, stepMul, stepDiv, storeBlock,
    loadCombine, accumulate, loopFrom, branchStep, branchValue, lit, add, sub, mul, div,
    Mem.store, Mem.slot, Mem.load, tdiv_24_3, fit_small hm, bind, Except.bind, pure,
    Except.pure]
  simp [Mode.fit, wrap_small (show 8 ≤ 32 by norm_num)]

/-- C2 (as stated, refuted): started from a buffer holding zeros, the variant
that runs the load-and-combine before the stores does compute `mem[3]` from
different contents (0 instead of 23), and yet it returns the same value as the
reference sequence. -/
theorem reordered_output_not_different :
    (runReordered (.wrapping 32) 11 (Mem.fresh 0 0 0 0)).map (fun r => r.mem.s3.val) = .ok 0
      ∧ (run (.wrapping 32) 11 (Mem.fresh 0 0 0 0)).map (fun r => r.mem.s3.val) = .ok 23
      ∧ ¬ (mainReordered 11 (Mem.fresh 0 0 0 0) ≠ main 11 (Mem.fresh 0 0 0 0)) := by
  refine ⟨?_, ?_, ?_⟩
  · rw [runReordered_eq (le_refl 11)]
    simp [Except.map, Mem.fresh, wrap]
  · rw [run_eq atLeast_wrapping32 (le_refl 11)]
    simp [Except.map, finalRegs]
  · simp [mainReordered, main, mainIn, runReordered_eq (le_refl 11),
      run_eq atLeast_wrapping32 (le_refl 11), Except.map, finalRegs]

/-- C2 (amended): running the load-and-combine before the stores changes the
buffer, not the returned value.  For every initial buffer the variant leaves in
`mem[3]` the wrapped sum of the three prior contents where the reference run
leaves 23, the other three slots agree, and both return 5. -/
theorem reordered_changes_mem_not_output (fuel : Nat) (hf : 11 ≤ fuel) (mem0 : Mem) :
    (runReordered (.wrapping 32) fuel mem0).map (fun r => r.mem.vals)
        = .ok [8, 5, 10, wrap 32 (wrap 32 (mem0.s0.val + mem0.s1.val) + mem0.s2.val)]
      ∧ (run (.wrapping 32) fuel mem0).map (fun r => r.mem.vals) = .ok [8, 5, 10, 23]
      ∧ mainReordered fuel mem0 = .ok 5
      ∧ main fuel mem0 = .ok 5 := by
  simp [mainReordered, main, mainIn, runReordered_eq hf, run_eq atLeast_wrapping32 hf,
    Except.map, finalRegs, Mem.vals]

theorem reordered_changes_mem_not_output_witness :
    (runReordered (.wrapping 32) 12 (Mem.fresh 1 2 3 4)).map (fun r => r.mem.vals)
        = .ok [8, 5, 10, wrap 32 (wrap 32 ((Mem.fresh 1 2 3 4).s0.val
            + (Mem.fresh 1 2 3 4).s1.val) + (Mem.fresh 1 2 3 4).s2.val)]
      ∧ (run (.wrapping 32) 12 (Mem.fresh 1 2 3 4)).map (fun r => r.mem.vals)
        = .ok [8, 5, 10, 23]
      ∧ mainReordered 12 (Mem.fresh 1 2 3 4) = .ok 5
      ∧ main 12 (Mem.fresh 1 2 3 4) = .ok 5 :=
  reordered_changes_mem_not_output 12 (by decide) (Mem.fresh 1 2 3 4)

/-! ## Absence of faults -/

/-- C3: on the fixed inputs no statement of `main` faults.  With 32-bit `int`,
overflow, a zero divisor, an index outside `0..3` and a read of an unwritten
slot all made faults, the run still ends in a state (the one with `c = 5`) and
not in any fault, from every initial buffer; the divisor of line 10 is the
non-zero literal 3 and each index the source uses names a slot. -/
theorem run_never_faults (fuel : Nat) (hf : 11 ≤ fuel) (mem0 : Mem) :
    (∃ r, run (.trapping 32) fuel mem0 = .ok r ∧ r.c = 5)
      ∧ (∀ e, run (.trapping 32) fuel mem0 ≠ .error e)
      ∧ (∀ e, main fuel mem0 ≠ .error e)
      ∧ (lit (.trapping 32) 3 = .ok 3 ∧ ∀ x, div (.trapping 32) x 3 ≠ .error .divByZero)
      ∧ (∀ k ∈ ([0, 1, 2, 3] : List Int), (mem0.slot k).isSome = true
          ∧ ∀ v, mem0.store k v ≠ .error .outOfBounds) := by
  refine ⟨⟨finalRegs, run_eq atLeast_trapping32 hf mem0, rfl⟩, ?_, ?_, ⟨?_, ?_⟩, ?_⟩
  · intro e
    simp [run_eq atLeast_trapping32 hf]
  · intro e
    simp [main_eq hf]
  · exact fit_small atLeast_trapping32 (by norm_num) (by norm_num)
  · intro x
    unfold div
    rw [if_neg (by norm_num)]
    by_cases h : inRange 32 (x.tdiv 3) <;> simp [Mode.fit, h]
  · intro k hk
    simp only [List.mem_cons, List.mem_singleton, List.not_mem_nil, or_false] at hk
    rcases hk with rfl | rfl | rfl | rfl <;> simp [Mem.slot, Mem.store]

theorem run_never_faults_witness :
    ∃ r, run (.trapping 32) 11 (Mem.fresh 7 7 7 7) = .ok r ∧ r.c = 5 :=
  (run_never_faults 11 (le_refl 11) (Mem.fresh 7 7 7 7)).1

/-! ## Division -/

theorem tdiv3_cases (x : Int) :
    (0 ≤ x ∧ Int.tdiv x 3 = x / 3) ∨ (x < 0 ∧ Int.tdiv x 3 = -((-x) / 3)) := by
  rcases le_or_lt 0 x with h | h
  · exact Or.inl ⟨h, Int.tdiv_eq_ediv h (by norm_num)⟩
  · refine Or.inr ⟨h, ?_⟩
    have h1 : Int.tdiv (-(-x)) 3 = -(Int.tdiv (-x) 3) := Int.neg_tdiv (-x) 3
    rw [neg_neg] at h1
    rw [h1, Int.tdiv_eq_ediv (by omega) (by norm_num)]

theorem represents_tdiv3 {m : Mode} {x : Int} (hx : m.represents x) :
    m.represents (Int.tdiv x 3) := by
  cases m with
  | exact => trivial
  | wrapping w =>
    simp only [Mode.represents, inRange] at hx ⊢
    have hp : (0 : Int) < 2 ^ (w - 1) := by positivity
    rcases tdiv3_cases x with ⟨h, e⟩ | ⟨h, e⟩ <;> omega
  | trapping w =>
    simp only [Mode.represents, inRange] at hx ⊢
    have hp : (0 : Int) < 2 ^ (w - 1) := by positivity
    rcases tdiv3_cases x with ⟨h, e⟩ | ⟨h, e⟩ <;> omega

theorem div3_eq {m : Mode} (hm : m.atLeast 8) {x : Int} (hx : m.represents x) :
    div m x 3 = .ok (Int.tdiv x 3) := by
  unfold div
  rw [if_neg (by norm_num)]
  exact fit_of_represents (atLeast_mono (by omega) hm) (represents_tdiv3 hx)

/-- C4: the division of line 10 rounds toward zero.  In every mode at least 8
bits wide and for every representable dividend `x`, dividing by 3 succeeds with
a quotient `q` such that `|q| * 3 ≤ |x| < (|q| + 1) * 3` and `q` is zero or has
the sign of `x`; the statement `c = c / 3` stores exactly that `q`; and both
`-24 / 3` and `-25 / 3` are `-8` (flooring would give `-9` for the latter). -/
theorem div_truncates_toward_zero (m : Mode) (hm : m.atLeast 8) (x : Int)
    (hx : m.represents x) :
    ∃ q, div m x 3 = .ok q
      ∧ (∀ a b mem s i, stepDiv m ⟨a, b, x, mem, s, i⟩ = .ok ⟨a, b, q, mem, s, i⟩)
      ∧ |q| * 3 ≤ |x| ∧ |x| < (|q| + 1) * 3
      ∧ (q = 0 ∨ q.sign = x.sign)
      ∧ div m (-24) 3 = .ok (-8)
      ∧ div m (-25) 3 = .ok (-8)
      ∧ div m (-25) 3 ≠ .ok (-9) := by
  have h24 : div m (-24) 3 = .ok (-8) := by
    rw [div3_eq hm (represents_small hm (by norm_num) (by norm_num))]
    rfl
  have h25 : div m (-25) 3 = .ok (-8) := by
    rw [div3_eq hm (represents_small hm (by norm_num) (by norm_num))]
    rfl
  refine ⟨Int.tdiv x 3, div3_eq hm hx, ?_, ?_, ?_, ?_, h24, h25, ?_⟩
  · intro a b mem s i
    simp [stepDiv, lit, fit_small hm, div3_eq hm hx, bind, Except.bind, pure, Except.pure]
  · rcases tdiv3_cases x with ⟨h, e⟩ | ⟨h, e⟩
    · rw [abs_of_nonneg h, abs_of_nonneg (by omega)]
      omega
    · rw [abs_of_neg h, abs_of_nonpos (by omega)]
      omega
  · rcases tdiv3_cases x with ⟨h, e⟩ | ⟨h, e⟩
    · rw [abs_of_nonneg h, abs_of_nonneg (by omega)]
      omega
    · rw [abs_of_neg h, abs_of_nonpos (by omega)]
      omega
  · rcases tdiv3_cases x with ⟨h, e⟩ | ⟨h, e⟩
    · rcases eq_or_lt_of_le (show (0 : Int) ≤ Int.tdiv x 3 by omega) with h0 | h0
      · exact Or.inl h0.symm
      · right
        rw [Int.sign_eq_one_of_pos h0, Int.sign_eq_one_of_pos (by omega)]
    · rcases eq_or_lt_of_le (show Int.tdiv x 3 ≤ 0 by omega) with h0 | h0
      · exact Or.inl h0
      · right
        rw [Int.sign_eq_neg_one_of_neg h0, Int.sign_eq_neg_one_of_neg h]
  · rw [h25]
    simp

theorem div_truncates_toward_zero_witness :
    ∃ q, div (.wrapping 32) (-25) 3 = .ok q
      ∧ (∀ a b mem s i,
          stepDiv (.wrapping 32) ⟨a, b, -25, mem, s, i⟩ = .ok ⟨a, b, q, mem, s, i⟩)
      ∧ |q| * 3 ≤ |(-25 : Int)| ∧ |(-25 : Int)| < (|q| + 1) * 3
      ∧ (q = 0 ∨ q.sign = (-25 : Int).sign)
      ∧ div (.wrapping 32) (-24) 3 = .ok (-8)
      ∧ div (.wrapping 32) (-25) 3 = .ok (-8)
      ∧ div (.wrapping 32) (-25) 3 ≠ .ok (-9) :=
  div_truncates_toward_zero (.wrapping 32) atLeast_wrapping32 (-25)
    (represents_small atLeast_wrapping32 (by norm_num) (by norm_num))

/-! ## The branch -/

theorem represents_branch {m : Mode} (hm : m.atLeast 8) {s : Int} (hs : m.represents s) :
    m.represents (if s > 50 then s - 50 else s + 50) := by
  cases m with
  | exact => trivial
  | wrapping w =>
    have h := two_pow_pred_ge hm
    simp only [Mode.represents, inRange] at hs ⊢
    split <;> omega
  | trapping w =>
    have h := two_pow_pred_ge hm
    simp only [Mode.represents, inRange] at hs ⊢
    split <;> omega

theorem branchValue_eq {m : Mode} (hm : m.atLeast 8) {s : Int} (hs : m.represents s) :
    branchValue m s = .ok (if s > 50 then s - 50 else s + 50) := by
  have h1 := atLeast_mono (show 1 ≤ 8 by omega) hm
  have hr := represents_branch hm hs
  by_cases h : s > 50
  · rw [if_pos h] at hr ⊢
    simp [branchValue, lit, sub, fit_small hm, fit_of_represents h1 hr, h, bind,
      Except.bind]
  · rw [if_neg h] at hr ⊢
    simp [branchValue, lit, add, fit_small hm, fit_of_represents h1 hr, h, bind,
      Except.bind]

/-- C5: the comparison of line 26 is strict.  In every mode at least 8 bits
wide and for every representable `sum`, the branch yields `sum - 50` exactly
when `sum > 50` and `sum + 50` exactly when not, and that value is what line
27 or 29 stores in `c`; for `sum = 50` the else-arm runs and the result is
100. -/
theorem branch_is_strict (m : Mode) (hm : m.atLeast 8) (s : Int) (hs : m.represents s) :
    branchValue m s = .ok (if s > 50 then s - 50 else s + 50)
      ∧ (branchValue m s = .ok (s - 50) ↔ s > 50)
      ∧ (branchValue m s = .ok (s + 50) ↔ ¬ s > 50)
      ∧ (∀ a b c mem i, branchStep m ⟨a, b, c, mem, s, i⟩
          = .ok ⟨a, b, if s > 50 then s - 50 else s + 50, mem, s, i⟩)
      ∧ branchValue m 50 = .ok 100 := by
  have hv := branchValue_eq hm hs
  refine ⟨hv, ?_, ?_, ?_, ?_⟩
  · rw [hv]
    by_cases h : s > 50
    · simp [h]
    · rw [if_neg h, Except.ok.injEq]
      exact ⟨fun e => by omega, fun e => absurd e h⟩
  · rw [hv]
    by_cases h : s > 50
    · rw [if_pos h, Except.ok.injEq]
      exact ⟨fun e => by omega, fun e => absurd h e⟩
    · simp [h]
  · intro a b c mem i
    simp [branchStep, hv, bind, Except.bind, pure, Except.pure]
  · rw [branchValue_eq hm (represents_small hm (by norm_num) (by norm_num))]
    rfl

theorem branch_is_strict_witness :
    branchValue (.wrapping 32) 50 = .ok (if (50 : Int) > 50 then 50 - 50 else 50 + 50)
      ∧ (branchValue (.wrapping 32) 50 = .ok (50 - 50) ↔ (50 : Int) > 50)
      ∧ (branchValue (.wrapping 32) 50 = .ok (50 + 50) ↔ ¬ (50 : Int) > 50)
      ∧ (∀ a b c mem i, branchStep (.wrapping 32) ⟨a, b, c, mem, 50, i⟩
          = .ok ⟨a, b, if (50 : Int) > 50 then 50 - 50 else 50 + 50, mem, 50, i⟩)
      ∧ branchValue (.wrapping 32) 50 = .ok 100 :=
  branch_is_strict (.wrapping 32) atLeast_wrapping32 50
    (represents_small atLeast_wrapping32 (by norm_num) (by norm_num))

/-! ## Determinism -/

/-- C6: `main` is a function of nothing but its own locals.  Any two runs with
enough fuel, started from any two contents of the uninitialised buffer, return
the identical value and end in the identical local state; the embedding has no
other state that a run could read or modify. -/
theorem main_is_deterministic (fuel fuel' : Nat) (hf : 11 ≤ fuel) (hf' : 11 ≤ fuel')
    (mem0 mem0' : Mem) :
    main fuel mem0 = main fuel' mem0'
      ∧ run (.wrapping 32) fuel mem0 = run (.wrapping 32) fuel' mem0' := by
  simp [main, mainIn, run_eq atLeast_wrapping32 hf, run_eq atLeast_wrapping32 hf']

theorem main_is_deterministic_witness :
    main 11 (Mem.fresh 0 0 0 0) = main 40 (Mem.fresh 9 (-3) 77 2147483647)
      ∧ run (.wrapping 32) 11 (Mem.fresh 0 0 0 0)
        = run (.wrapping 32) 40 (Mem.fresh 9 (-3) 77 2147483647) :=
  main_is_deterministic 11 40 (by decide) (by decide) (Mem.fresh 0 0 0 0)
    (Mem.fresh 9 (-3) 77 2147483647)

/-! ## Intermediate values -/

/-- C7: the arithmetic block takes `c` through 15, 12, 24 and 8, in that
order: from the declared state (`a = 5`, `b = 10`, `c = 0`) line 7 gives 15,
line 8 gives 12, line 9 gives 24, line 10 gives 8, and the block as a whole
ends with `c = 8`, in every mode at least 8 bits wide. -/
theorem alu_block_values (m : Mode) (hm : m.atLeast 8) (mem0 : Mem) :
    declare m mem0 = .ok ⟨5, 10, 0, mem0, 0, 0⟩
      ∧ stepAdd m ⟨5, 10, 0, mem0, 0, 0⟩ = .ok ⟨5, 10, 15, mem0, 0, 0⟩
      ∧ stepSub m ⟨5, 10, 15, mem0, 0, 0⟩ = .ok ⟨5, 10, 12, mem0, 0, 0⟩
      ∧ stepMul m ⟨5, 10, 12, mem0, 0, 0⟩ = .ok ⟨5, 10, 24, mem0, 0, 0⟩
      ∧ stepDiv m ⟨5, 10, 24, mem0, 0, 0⟩ = .ok ⟨5, 10, 8, mem0, 0, 0⟩
      ∧ (declare m mem0 >>= aluBlock m) = .ok ⟨5, 10, 8, mem0, 0, 0⟩ := by
  simp [declare, aluBlock, stepAdd, stepSub, stepMul, stepDiv, lit, add, sub, mul, div,
    tdiv_24_3, fit_small hm, bind, Except.bind, pure, Except.pure]

theorem alu_block_values_witness :
    declare (.wrapping 32) (Mem.fresh 0 0 0 0) = .ok ⟨5, 10, 0, Mem.fresh 0 0 0 0, 0, 0⟩
      ∧ stepAdd (.wrapping 32) ⟨5, 10, 0, Mem.fresh 0 0 0 0, 0, 0⟩
        = .ok ⟨5, 10, 15, Mem.fresh 0 0 0 0, 0, 0⟩
      ∧ stepSub (.wrapping 32) ⟨5, 10, 15, Mem.fresh 0 0 0 0, 0, 0⟩
        = .ok ⟨5, 10, 12, Mem.fresh 0 0 0 0, 0, 0⟩
      ∧ stepMul (.wrapping 32) ⟨5, 10, 12, Mem.fresh 0 0 0 0, 0, 0⟩
        = .ok ⟨5, 10, 24, Mem.fresh 0 0 0 0, 0, 0⟩
      ∧ stepDiv (.wrapping 32) ⟨5, 10, 24, Mem.fresh 0 0 0 0, 0, 0⟩
        = .ok ⟨5, 10, 8, Mem.fresh 0 0 0 0, 0, 0⟩
      ∧ (declare (.wrapping 32) (Mem.fresh 0 0 0 0) >>= aluBlock (.wrapping 32))
        = .ok ⟨5, 10, 8, Mem.fresh 0 0 0 0, 0, 0⟩ :=
  alu_block_values (.wrapping 32) atLeast_wrapping32 (Mem.fresh 0 0 0 0)

/-- C8: after lines 14-17 the buffer is exactly `[8, 5, 10, 23]`.  The stores
put `c`, `a` and `b` of the state the arithmetic block left into slots 0, 1
and 2, line 17 puts the sum of those three slots into slot 3, and the contents
are then 8, 5, 10 and 23, whatever the buffer held before. -/
theorem mem_after_stores (m : Mode) (hm : m.atLeast 8) (mem0 : Mem) :
    ∃ r1 r2 r3, (declare m mem0 >>= aluBlock m) = .ok r1
      ∧ storeBlock r1 = .ok r2
      ∧ loadCombine m r2 = .ok r3
      ∧ r2.mem.s0.val = r1.c ∧ r2.mem.s1.val = r1.a ∧ r2.mem.s2.val = r1.b
      ∧ r3.mem.s3.val = r2.mem.s0.val + r2.mem.s1.val + r2.mem.s2.val
      ∧ r3.mem.vals = [8, 5, 10, 23] := by
  refine ⟨⟨5, 10, 8, mem0, 0, 0⟩,
    ⟨5, 10, 8, ⟨⟨8, true⟩, ⟨5, true⟩, ⟨10, true⟩, mem0.s3⟩, 0, 0⟩,
    ⟨5, 10, 8, ⟨⟨8, true⟩, ⟨5, true⟩, ⟨10, true⟩, ⟨23, true⟩⟩, 0, 0⟩,
    declare_aluBlock_eq hm mem0, ?_, ?_, rfl, rfl, rfl, rfl, rfl⟩
  · simp [storeBlock, Mem.store, bind, Except.bind, pure, Except.pure]
  · simp [loadCombine, Mem.store, Mem.slot, load_written, add, fit_small hm, bind,
      Except.bind, pure, Except.pure]

theorem mem_after_stores_witness :
    ∃ r1 r2 r3,
      (declare (.wrapping 32) (Mem.fresh 1 2 3 4) >>= aluBlock (.wrapping 32)) = .ok r1
      ∧ storeBlock r1 = .ok r2
      ∧ loadCombine (.wrapping 32) r2 = .ok r3
      ∧ r2.mem.s0.val = r1.c ∧ r2.mem.s1.val = r1.a ∧ r2.mem.s2.val = r1.b
      ∧ r3.mem.s3.val = r2.mem.s0.val + r2.mem.s1.val + r2.mem.s2.val
      ∧ r3.mem.vals = [8, 5, 10, 23] :=
  mem_after_stores (.wrapping 32) atLeast_wrapping32 (Mem.fresh 1 2 3 4)

theorem accumulate_eq {m : Mode} (hm : m.atLeast 8) {fuel : Nat} (hf : 11 ≤ fuel)
    (r : Regs) : accumulate m fuel r = .ok ⟨r.a, r.b, r.c, r.mem, 55, 11⟩ := by
  obtain ⟨k, rfl⟩ : ∃ k, fuel = k + 11 := ⟨fuel - 11, by omega⟩
  simp [accumulate, loopFrom, lit, add, fit_small hm, bind, Except.bind, pure, Except.pure]

/-- C9: the accumulation loop leaves `sum = 55`.  From any state, lines 20-23
run with enough fuel end with `sum = 55` (and the index at its exit value 11),
the other locals untouched; so `sum` is 55 at the end of the whole run. -/
theorem loop_sum_is_55 (m : Mode) (hm : m.atLeast 8) (fuel : Nat) (hf : 11 ≤ fuel)
    (r : Regs) :
    accumulate m fuel r = .ok ⟨r.a, r.b, r.c, r.mem, 55, 11⟩
      ∧ ∀ mem0, (run m fuel mem0).map Regs.sum = .ok 55 := by
  refine ⟨accumulate_eq hm hf r, fun mem0 => ?_⟩
  simp [run_eq hm hf, Except.map, finalRegs]

theorem loop_sum_is_55_witness :
    accumulate (.wrapping 32) 11 ⟨5, 10, 8, Mem.fresh 0 0 0 0, 0, 0⟩
        = .ok ⟨5, 10, 8, Mem.fresh 0 0 0 0, 55, 11⟩
      ∧ ∀ mem0, (run (.wrapping 32) 11 mem0).map Regs.sum = .ok 55 :=
  loop_sum_is_55 (.wrapping 32) atLeast_wrapping32 11 (le_refl 11)
    ⟨5, 10, 8, Mem.fresh 0 0 0 0, 0, 0⟩

/-! ## Word width -/

theorem fit_trapping_ok {w : Nat} {x y : Int} (h : (Mode.trapping w).fit x = .ok y) :
    inRange w x ∧ y = x := by
  simp only [Mode.fit] at h
  by_cases hx : inRange w x
  · rw [if_pos hx] at h
    exact ⟨hx, (Except.ok.inj h).symm⟩
  · rw [if_neg hx] at h
    cases h

theorem run_trapping_6_overflows :
    run (.trapping 6) 11 (Mem.fresh 0 0 0 0) = .error .overflow := by
  rfl

/-- C10: at every word width `w ≥ 8` the fixed literals never leave the signed
`w`-bit range.  The run in which each literal and each arithmetic result is
checked against `[-2^(w-1), 2^(w-1) - 1]` ends without a fault; the final
values of `a`, `b`, `c`, `sum`, `i` (its exit value 11) and the four slots are
in that range; the run with `w`-bit wraparound ends in the same state as the
run in exact integers; and it returns 5. -/
theorem values_fit_width (w : Nat) (hw : 8 ≤ w) (fuel : Nat) (hf : 11 ≤ fuel)
    (mem0 : Mem) :
    run (.trapping w) fuel mem0 = .ok finalRegs
      ∧ (∀ v ∈ [finalRegs.a, finalRegs.b, finalRegs.c, finalRegs.sum, finalRegs.i]
            ++ finalRegs.mem.vals, inRange w v)
      ∧ run (.wrapping w) fuel mem0 = run .exact fuel mem0
      ∧ run (.wrapping w) fuel mem0 = .ok finalRegs
      ∧ mainIn (.wrapping w) fuel mem0 = .ok 5 := by
  have ht : (Mode.trapping w).atLeast 8 := hw
  have hwr : (Mode.wrapping w).atLeast 8 := hw
  have hex : Mode.exact.atLeast 8 := trivial
  refine ⟨run_eq ht hf mem0, ?_, ?_, run_eq hwr hf mem0, ?_⟩
  · intro v hv
    simp only [finalRegs, Mem.vals, List.cons_append, List.nil_append, List.mem_cons,
      List.mem_singleton, List.not_mem_nil, or_false] at hv
    apply inRange_of_small hw <;> omega
  · rw [run_eq hwr hf, run_eq hex hf]
  · simp [mainIn, run_eq hwr hf, Except.map, finalRegs]

theorem values_fit_width_witness :
    run (.trapping 8) 11 (Mem.fresh 0 0 0 0) = .ok finalRegs
      ∧ (∀ v ∈ [finalRegs.a, finalRegs.b, finalRegs.c, finalRegs.sum, finalRegs.i]
            ++ finalRegs.mem.vals, inRange 8 v)
      ∧ run (.wrapping 8) 11 (Mem.fresh 0 0 0 0) = run .exact 11 (Mem.fresh 0 0 0 0)
      ∧ run (.wrapping 8) 11 (Mem.fresh 0 0 0 0) = .ok finalRegs
      ∧ mainIn (.wrapping 8) 11 (Mem.fresh 0 0 0 0) = .ok 5 :=
  values_fit_width 8 (le_refl 8) 11 (le_refl 11) (Mem.fresh 0 0 0 0)

/-! ## Reads follow writes -/

theorem load_fresh_trapping (w : Nat) (v0 v1 v2 v3 : Int) (k : Int)
    (hk : k = 0 ∨ k = 1 ∨ k = 2 ∨ k = 3) :
    (Mem.fresh v0 v1 v2 v3).load (.trapping w) k = .error .uninitRead := by
  rcases hk with rfl | rfl | rfl | rfl <;> simp [Mem.load, Mem.slot, Mem.fresh]

theorem runReordered_trapping_faults {w : Nat} (hw : 8 ≤ w) (fuel : Nat)
    (v0 v1 v2 v3 : Int) :
    runReordered (.trapping w) fuel (Mem.fresh v0 v1 v2 v3) = .error .uninitRead := by
  have hm : (Mode.trapping w).atLeast 8 := hw
  simp [runReordered, declare, aluBlock, stepAdd, stepSub, stepMul, stepDiv, loadCombine,
    lit, add, sub, mul, div, Mem.slot, Mem.load, Mem.fresh, tdiv_24_3, fit_small hm, bind,
    Except.bind, pure, Except.pure]

/-- C11: every read of a slot comes after a write to it.  Start the buffer as
four unwritten cells (whatever they hold) and make a read of an unwritten cell
a fault: a read of any slot at that point would fault; once lines 14-16 have
run, slots 0, 1 and 2 are marked written and the three reads of line 17 return
8, 5 and 10; and the whole run ends without a fault, so no read anywhere in it
met an unwritten cell. -/
theorem reads_follow_writes (w : Nat) (hw : 8 ≤ w) (fuel : Nat) (hf : 11 ≤ fuel)
    (v0 v1 v2 v3 : Int) :
    (∀ k ∈ ([0, 1, 2, 3] : List Int),
        (Mem.fresh v0 v1 v2 v3).load (.trapping w) k = .error .uninitRead)
      ∧ (∃ r, (declare (.trapping w) (Mem.fresh v0 v1 v2 v3) >>= aluBlock (.trapping w)
              >>= storeBlock) = .ok r
          ∧ r.mem.s0.written = true ∧ r.mem.s1.written = true ∧ r.mem.s2.written = true
          ∧ r.mem.s3.written = false
          ∧ r.mem.load (.trapping w) 0 = .ok 8
          ∧ r.mem.load (.trapping w) 1 = .ok 5
          ∧ r.mem.load (.trapping w) 2 = .ok 10)
      ∧ run (.trapping w) fuel (Mem.fresh v0 v1 v2 v3) = .ok finalRegs
      ∧ run (.trapping w) fuel (Mem.fresh v0 v1 v2 v3) ≠ .error .uninitRead := by
  have hm : (Mode.trapping w).atLeast 8 := hw
  refine ⟨?_, ?_, run_eq hm hf _, ?_⟩
  · intro k hk
    simp only [List.mem_cons, List.mem_singleton, List.not_mem_nil, or_false] at hk
    exact load_fresh_trapping w v0 v1 v2 v3 k hk
  · refine ⟨⟨5, 10, 8, ⟨⟨8, true⟩, ⟨5, true⟩, ⟨10, true⟩, ⟨v3, false⟩⟩, 0, 0⟩, ?_,
      rfl, rfl, rfl, rfl, ?_, ?_, ?_⟩
    · rw [declare_aluBlock_eq hm]
      simp [storeBlock, Mem.store, Mem.fresh, bind, Except.bind, pure, Except.pure]
    · simp [Mem.load, Mem.slot]
    · simp [Mem.load, Mem.slot]
    · simp [Mem.load, Mem.slot]
  · rw [run_eq hm hf]
    simp

theorem reads_follow_writes_witness :
    run (.trapping 32) 11 (Mem.fresh 0 0 0 0) = .ok finalRegs :=
  (reads_follow_writes 32 (by decide) 11 (le_refl 11) 0 0 0 0).2.2.1

/-! ## Termination and the iterations of the loop -/

theorem loopTrace_erase (m : Mode) (bound : Int) (fuel : Nat) (r : Regs) :
    (loopTrace m bound fuel r).map Prod.snd = loopFrom m bound fuel r := by
  induction fuel generalizing r with
  | zero => rfl
  | succ fuel ih =>
    simp only [loopTrace, loopFrom, bind, Except.bind, pure, Except.pure]
    cases lit m bound with
    | error e => rfl
    | ok k =>
      by_cases hc : r.i ≤ k
      · simp only [if_pos hc]
        cases add m r.sum r.i with
        | error e => rfl
        | ok s =>
          dsimp only
          cases lit m 1 with
          | error e => rfl
          | ok one =>
            dsimp only
            cases add m r.i one with
            | error e => rfl
            | ok j =>
              dsimp only
              rw [← ih]
              cases loopTrace m bound fuel ⟨r.a, r.b, r.c, r.mem, s, j⟩ <;> rfl
      · simp only [if_neg hc]
        rfl

theorem loopTrace_ten {m : Mode} (hm : m.atLeast 8) {fuel : Nat} (hf : 11 ≤ fuel)
    (r : Regs) :
    loopTrace m 10 fuel ⟨r.a, r.b, r.c, r.mem, 0, 1⟩
      = .ok ([(1, 1), (2, 3), (3, 6), (4, 10), (5, 15), (6, 21), (7, 28), (8, 36), (9, 45),
          (10, 55)], ⟨r.a, r.b, r.c, r.mem, 55, 11⟩) := by
  obtain ⟨k, rfl⟩ : ∃ k, fuel = k + 11 := ⟨fuel - 11, by omega⟩
  simp [loopTrace, lit, add, fit_small hm, bind, Except.bind, pure, Except.pure]

theorem loopTrace_ten_short {m : Mode} (hm : m.atLeast 8) (r : Regs) :
    loopTrace m 10 10 ⟨r.a, r.b, r.c, r.mem, 0, 1⟩ = .error .outOfFuel := by
  simp [loopTrace, lit, add, fit_small hm, bind, Except.bind, pure, Except.pure]

/-- C12: the kernel is total and its loop runs ten times.  In every mode at
least 8 bits wide, entered with `sum = 0` and `i = 1` and given fuel for eleven
evaluations of its condition, the loop of lines 21-23 ends; its body ran
exactly ten times, with `i` = 1, 2, ..., 10 in that order; `i` is 11 at the
exit; ten units of fuel are not enough; and the run as a whole returns (the
value 5). -/
theorem loop_runs_ten_times (m : Mode) (hm : m.atLeast 8) (fuel : Nat) (hf : 11 ≤ fuel)
    (r : Regs) (mem0 : Mem) :
    ∃ tr out, loopTrace m 10 fuel ⟨r.a, r.b, r.c, r.mem, 0, 1⟩ = .ok (tr, out)
      ∧ tr.length = 10
      ∧ tr.map Prod.fst = [1, 2, 3, 4, 5, 6, 7, 8, 9, 10]
      ∧ out.i = 11
      ∧ loopFrom m 10 fuel ⟨r.a, r.b, r.c, r.mem, 0, 1⟩ = .ok out
      ∧ accumulate m fuel r = .ok out
      ∧ loopFrom m 10 10 ⟨r.a, r.b, r.c, r.mem, 0, 1⟩ = .error .outOfFuel
      ∧ mainIn m fuel mem0 = .ok 5 := by
  refine ⟨_, _, loopTrace_ten hm hf r, rfl, rfl, rfl, ?_, accumulate_eq hm hf r, ?_, ?_⟩
  · rw [← loopTrace_erase, loopTrace_ten hm hf r]
    rfl
  · rw [← loopTrace_erase, loopTrace_ten_short hm r]
    rfl
  · simp [mainIn, run_eq hm hf, Except.map, finalRegs]

theorem loop_runs_ten_times_witness :
    ∃ tr out, loopTrace (.wrapping 32) 10 11 ⟨5, 10, 8, Mem.fresh 0 0 0 0, 0, 1⟩
        = .ok (tr, out)
      ∧ tr.length = 10
      ∧ tr.map Prod.fst = [1, 2, 3, 4, 5, 6, 7, 8, 9, 10]
      ∧ out.i = 11
      ∧ loopFrom (.wrapping 32) 10 11 ⟨5, 10, 8, Mem.fresh 0 0 0 0, 0, 1⟩ = .ok out
      ∧ accumulate (.wrapping 32) 11 ⟨5, 10, 8, Mem.fresh 0 0 0 0, 0, 0⟩ = .ok out
      ∧ loopFrom (.wrapping 32) 10 10 ⟨5, 10, 8, Mem.fresh 0 0 0 0, 0, 1⟩
        = .error .outOfFuel
      ∧ mainIn (.wrapping 32) 11 (Mem.fresh 0 0 0 0) = .ok 5 :=
  loop_runs_ten_times (.wrapping 32) atLeast_wrapping32 11 (le_refl 11)
    ⟨5, 10, 8, Mem.fresh 0 0 0 0, 0, 0⟩ (Mem.fresh 0 0 0 0)

/-! ## What the returned value depends on -/

theorem runWith_5_10 (m : Mode) (fuel : Nat) (mem0 : Mem) :
    runWith m 5 10 fuel mem0 = run m fuel mem0 := rfl

theorem tail_eq {m : Mode} (hm : m.atLeast 8) {fuel : Nat} (hf : 11 ≤ fuel) (r : Regs) :
    (accumulate m fuel r >>= branchStep m) = .ok ⟨r.a, r.b, 5, r.mem, 55, 11⟩ := by
  have hb : branchValue m 55 = .ok 5 := by
    rw [branchValue_eq hm (represents_small hm (by norm_num) (by norm_num))]
    rfl
  rw [accumulate_eq hm hf]
  simp [branchStep, hb, bind, Except.bind, pure, Except.pure]

theorem front_wrapping_ok (a0 b0 : Int) (mem0 : Mem) :
    ∃ r, (declareWith (.wrapping 32) a0 b0 mem0 >>= aluBlock (.wrapping 32) >>= storeBlock
      >>= loadCombine (.wrapping 32)) = .ok r := by
  simp [declareWith, aluBlock, stepAdd, stepSub, stepMul, stepDiv, storeBlock, loadCombine,
    lit, add, sub, mul, div, Mem.store, Mem.slot, Mem.load, Mode.fit,
    wrap_small (show 8 ≤ 32 by norm_num), bind, Except.bind, pure, Except.pure]

/-- C13: the returned value depends neither on the arithmetic block nor on the
buffer.  With 32-bit wraparound, whatever integers initialise `a` and `b` and
whatever the buffer holds, the kernel returns 5; at 5 and 10 this kernel is
`main`; and from any local state at all reaching line 20, lines 20-29 leave
`c = 5`, since both arms of the branch assign `c` from `sum` alone. -/
theorem output_ignores_alu_and_mem (a0 b0 : Int) (fuel : Nat) (hf : 11 ≤ fuel)
    (mem0 : Mem) :
    mainWith a0 b0 fuel mem0 = .ok 5
      ∧ mainWith 5 10 fuel mem0 = main fuel mem0
      ∧ ∀ r : Regs,
          (accumulate (.wrapping 32) fuel r >>= branchStep (.wrapping 32)).map Regs.c
            = .ok 5 := by
  refine ⟨?_, rfl, fun r => ?_⟩
  · obtain ⟨r, hr⟩ := front_wrapping_ok a0 b0 mem0
    have ht := tail_eq atLeast_wrapping32 hf r
    have hrun : runWith (.wrapping 32) a0 b0 fuel mem0
        = (accumulate (.wrapping 32) fuel r >>= branchStep (.wrapping 32)) := by
      unfold runWith
      rw [hr]
      rfl
    rw [mainWith, hrun, ht]
    rfl
  · rw [tail_eq atLeast_wrapping32 hf r]
    rfl

theorem output_ignores_alu_and_mem_witness :
    mainWith 2147483647 (-7) 11 (Mem.fresh 1 2 3 4) = .ok 5
      ∧ mainWith 5 10 11 (Mem.fresh 1 2 3 4) = main 11 (Mem.fresh 1 2 3 4)
      ∧ ∀ r : Regs,
          (accumulate (.wrapping 32) 11 r >>= branchStep (.wrapping 32)).map Regs.c
            = .ok 5 :=
  output_ignores_alu_and_mem 2147483647 (-7) 11 (le_refl 11) (Mem.fresh 1 2 3 4)

/-! ## The loop computes triangular numbers -/

end Example
